import Mathlib

/-!
Verification development for the talking_head content-selection and
segment-scheduling pipeline.

The Python source represents transcript segments as dicts with optional
keys; we embed them as a structure of `Option` fields.  Python floats
(seconds, scores) are modelled as rationals `ℚ`; all constants appearing
in the source (1.2, 1.3, 1.4, 0.8, 2.0, 2.5) are exactly representable.
Python `list.sort` is a stable sort; we use `List.insertionSort` (also
stable, and kernel-computable) with the total preorder corresponding to
the Python key — a stable sort's output is determined by the key, so any
stable sort gives the list Timsort gives.

External ML oracles (the summarization pipeline in
`_select_by_text_importance`, the chat-completion call in
`_refine_script_with_ai`) are modelled by explicit parameters: `none`
means the oracle raised or produced unparseable output (which the
source catches), `some v` means it returned the value `v`.
-/

section TalkingHead

/- Batteries marks the rational operations irreducible, which blocks
elaboration of `decide` proofs on concrete pipeline runs; restore the
default reducibility locally (the kernel is unaffected either way). -/
attribute [local semireducible] Rat.mul Rat.add Rat.sub Rat.inv

/-- A transcript segment: Python dict with optional keys
`id`, `start`, `end`, `text`, `score`, `script_text`, `original_text`.
The Python key `end` is spelled `end_` (Lean keyword). -/
structure Segment where
  id : Option Int := none
  start : Option ℚ := none
  end_ : Option ℚ := none
  text : Option String := none
  score : Option ℚ := none
  script_text : Option String := none
  original_text : Option String := none
deriving DecidableEq, Repr

/-- `'start' in segment and 'end' in segment`. -/
def Segment.timed (s : Segment) : Bool :=
  s.start.isSome && s.end_.isSome

/-- `segment['end'] - segment['start']` where both keys are present, else 0.
Mirrors the generator expressions of the source that guard on
`'end' in seg and 'start' in seg`. -/
def Segment.durOr0 (s : Segment) : ℚ :=
  match s.start, s.end_ with
  | some a, some b => b - a
  | _, _ => 0

/-- `sum(seg['end'] - seg['start'] for seg in l if 'end' in seg and 'start' in seg)`. -/
def sumTimedDur (l : List Segment) : ℚ :=
  (l.map Segment.durOr0).sum

/-- Sort key `lambda x: x['id'] if 'id' in x else 0`. -/
def Segment.idOr0 (s : Segment) : Int :=
  s.id.getD 0

/-- Sort key `lambda x: x.get('score', 0)`. -/
def Segment.scoreOr0 (s : Segment) : ℚ :=
  s.score.getD 0

/-- Comparator for `sort(key=lambda x: x['id'] if 'id' in x else 0)`. -/
def idLe (a b : Segment) : Prop :=
  a.idOr0 ≤ b.idOr0

instance : DecidableRel idLe :=
  fun a b => inferInstanceAs (Decidable (a.idOr0 ≤ b.idOr0))

/-- Comparator for `sort(key=lambda x: x.get('score', 0), reverse=True)`. -/
def scoreGe (a b : Segment) : Prop :=
  b.scoreOr0 ≤ a.scoreOr0

instance : DecidableRel scoreGe :=
  fun a b => inferInstanceAs (Decidable (b.scoreOr0 ≤ a.scoreOr0))

/-- Comparator for `segments_with_duration.sort(key=lambda x: x[1], reverse=True)`. -/
def durGe (a b : Segment × ℚ) : Prop :=
  b.2 ≤ a.2

instance : DecidableRel durGe :=
  fun a b => inferInstanceAs (Decidable (b.2 ≤ a.2))

/-- Comparator for `sort(key=lambda x: abs(remaining_duration - x[1]))`. -/
def fitLe (remaining : ℚ) (a b : Segment × ℚ) : Prop :=
  |remaining - a.2| ≤ |remaining - b.2|

instance (remaining : ℚ) : DecidableRel (fitLe remaining) :=
  fun a b => inferInstanceAs (Decidable (|remaining - a.2| ≤ |remaining - b.2|))

/-- ASCII model of the regex word characters `\w`. -/
def isWordChar (c : Char) : Bool :=
  c.isAlphanum || c == '_'

/-- Maximal runs of word characters: `re.findall(r'\b\w+\b', s)`
on the already lowercased character list. -/
def wordRuns : List Char → List Char → List (List Char)
  | [], cur => if cur.isEmpty then [] else [cur.reverse]
  | c :: rest, cur =>
    if isWordChar c then wordRuns rest (c :: cur)
    else if cur.isEmpty then wordRuns rest []
    else cur.reverse :: wordRuns rest []

/-- `re.findall(r'\b\w+\b', s.lower())` as a list of words. -/
def extractWords (s : String) : List String :=
  (wordRuns (s.data.map Char.toLower) []).map List.asString

/-- The distinct words of a text: `set(re.findall(r'\b\w+\b', s.lower()))`. -/
def wordSet (s : String) : List String :=
  (extractWords s).dedup

/-- Score of one segment text against the summary word set:
`overlap / max(1, len(segment_words))` where
`overlap = len(segment_words.intersection(summary_words))`. -/
def overlapScore (txt : String) (summaryWords : List String) : ℚ :=
  let segWords := wordSet txt
  let overlap := (segWords.filter (fun w => w ∈ summaryWords)).length
  (overlap : ℚ) / (max 1 segWords.length : ℚ)

/-- Pair a segment with its duration when it has timing
(the `segments_with_duration` accumulation of `_select_by_duration`). -/
def pairWithDuration (seg : Segment) : Option (Segment × ℚ) :=
  match seg.start, seg.end_ with
  | some a, some b => some (seg, b - a)
  | _, _ => none

/-- An available `(segment, duration)` pair of `_select_additional_content`:
the segment must carry an `id` not yet used, plus timing. -/
def availPair (used_ids : List Int) (seg : Segment) : Option (Segment × ℚ) :=
  match seg.id, seg.start, seg.end_ with
  | some i, some a, some b =>
    if i ∈ used_ids then none else some (seg, b - a)
  | _, _, _ => none

/-- Score one segment against the summary words
(`segment_copy = segment.copy(); segment_copy['score'] = overlap / ...`);
segments without a `text` key are skipped (`continue`). -/
def scoreSegment (summary_words : List String) (seg : Segment) : Option Segment :=
  match seg.text with
  | some txt => some { seg with score := some (overlapScore txt summary_words) }
  | none => none

/-- Greedy accumulation over `(segment, duration)` pairs:
append the pair while the running duration stays within `allowed`
(`_select_by_duration` and `_select_additional_content` loops). -/
def greedyPairs (allowed : ℚ) : List (Segment × ℚ) → ℚ → List (Segment × ℚ)
  | [], _ => []
  | p :: rest, cur =>
    if cur + p.2 ≤ allowed then p :: greedyPairs allowed rest (cur + p.2)
    else greedyPairs allowed rest cur

/-- `_select_by_duration(transcript, target_duration)`:
keep timed segments, longest first, while within `target_duration * 1.3`;
return them re-sorted by `id`. -/
def select_by_duration (transcript : List Segment) (target_duration : ℚ) :
    List Segment :=
  if transcript.isEmpty then []
  else
    let segments_with_duration := transcript.filterMap pairWithDuration
    let total_duration := (segments_with_duration.map Prod.snd).sum
    if total_duration = 0 then transcript
    else
      let sorted := segments_with_duration.insertionSort durGe
      let max_allowed_duration := target_duration * (13 / 10)
      let selected := (greedyPairs max_allowed_duration sorted 0).map Prod.fst
      selected.insertionSort idLe

/-- The greedy loop of `_select_by_text_importance`: timed segments are
accepted while within `allowed_duration`; segments without timestamps
are always included and add nothing to the running duration. -/
def textGreedy (allowed : ℚ) : List Segment → ℚ → List Segment
  | [], _ => []
  | seg :: rest, cur =>
    match seg.start, seg.end_ with
    | some a, some b =>
      if cur + (b - a) ≤ allowed then seg :: textGreedy allowed rest (cur + (b - a))
      else textGreedy allowed rest cur
    | _, _ => seg :: textGreedy allowed rest cur

/-- `_select_by_text_importance(transcript, target_duration)`.

`oracleSummary` abstracts the whole summarization block (model load,
chunking, summarizer calls): `some s` is the `combined_summary` string it
produced, `none` means some call in the `try` block raised, in which case
the source logs and returns `_select_by_duration(transcript, target_duration)`. -/
def select_by_text_importance (oracleSummary : Option String)
    (transcript : List Segment) (target_duration : ℚ) : List Segment :=
  match oracleSummary with
  | none => select_by_duration transcript target_duration
  | some combined_summary =>
    let summary_words := wordSet combined_summary
    let selected_segments := transcript.filterMap (scoreSegment summary_words)
    let sorted := selected_segments.insertionSort scoreGe
    let allowed_duration := target_duration * (12 / 10)
    let final_segments := textGreedy allowed_duration sorted 0
    final_segments.insertionSort idLe

/-- `_select_additional_content(transcript, remaining_duration, used_ids)`:
unused timed segments with ids, closest-fit first, while within
`remaining_duration * 1.4`. -/
def select_additional_content (transcript : List Segment)
    (remaining_duration : ℚ) (used_ids : List Int) : List Segment :=
  let available_segments := transcript.filterMap (availPair used_ids)
  let sorted := available_segments.insertionSort (fitLe remaining_duration)
  (greedyPairs (remaining_duration * (14 / 10)) sorted 0).map Prod.fst

/-- One step of the merge loop of `select_key_moments`: the accumulator is
`(final_selection, selected_text_ids)`.  In the merge loop all segments
are timed (`has_timestamps` held), so `segment['end'] - segment['start']`
is `durOr0`. -/
def mergeStep (target_duration : ℚ) (acc : List Segment × List Int)
    (seg : Segment) : List Segment × List Int :=
  match seg.id with
  | some i =>
    if i ∈ acc.2 then acc
    else
      let segment_duration := seg.durOr0
      let current_duration := sumTimedDur acc.1
      if current_duration + segment_duration ≤ target_duration * (14 / 10) then
        (acc.1 ++ [seg], acc.2 ++ [i])
      else acc
  | none => acc

/-- `select_key_moments(transcript, target_duration)` from
`src/content_selection.py`, parameterized by the summarization oracle. -/
def select_key_moments (oracleSummary : Option String)
    (transcript : List Segment) (target_duration : ℚ) : List Segment :=
  let has_timestamps := transcript.all Segment.timed
  if ¬ has_timestamps then
    select_by_text_importance oracleSummary transcript target_duration
  else
    let total_duration := sumTimedDur transcript
    if total_duration ≤ target_duration then transcript
    else
      let adjusted_target := target_duration * (13 / 10)
      let selected_by_text :=
        select_by_text_importance oracleSummary transcript adjusted_target
      let selected_by_duration := select_by_duration transcript adjusted_target
      let selected_text_ids := selected_by_text.filterMap Segment.id
      let merged := selected_by_duration.foldl (mergeStep target_duration)
        (selected_by_text, selected_text_ids)
      let final_selection := merged.1.insertionSort idLe
      let actual_duration := sumTimedDur final_selection
      if actual_duration < target_duration * (8 / 10) ∧ 0 < actual_duration then
        let additional := select_additional_content transcript
          (target_duration - actual_duration) merged.2
        (final_selection ++ additional).insertionSort idLe
      else final_selection

/-! ### Concrete transcripts used by witnesses and counterexamples -/

/-- Scenario A of the spec: 10 contiguous segments of 10 seconds each,
ids 0 through 9. -/
def scenarioA : List Segment :=
  (List.range 10).map (fun i =>
    { id := some i, start := some (10 * i), end_ := some (10 * i + 10),
      text := some "t" })

/-- A 40-second transcript (for the short-circuit witness). -/
def transcript40 : List Segment :=
  [{ id := some 0, start := some 0, end_ := some 25, text := some "hello there" },
   { id := some 1, start := some 25, end_ := some 40, text := some "general words" }]

/-- A transcript whose second segment lacks `end` (for the text-only path). -/
def transcriptUntimed : List Segment :=
  [{ id := some 0, start := some 0, end_ := some 25, text := some "hello there" },
   { id := some 1, start := some 25, text := some "general words" }]

/-! ### C2 — short-circuit correctness -/

/-- C2: for every transcript in which every segment carries `start` and
`end` timing, if the total duration `sum(end - start)` is at most
`targetDuration` then `select_key_moments` returns the transcript
unchanged, in original order. -/
theorem select_key_moments_short_circuit (oracleSummary : Option String)
    (transcript : List Segment) (target_duration : ℚ)
    (ht : transcript.all Segment.timed)
    (hd : sumTimedDur transcript ≤ target_duration) :
    select_key_moments oracleSummary transcript target_duration = transcript := by
  simp [select_key_moments, ht, hd]

/-- Witness for C2: the 40-second transcript with a 60-second target
passes through unchanged. -/
theorem select_key_moments_short_circuit_witness :
    select_key_moments none transcript40 60 = transcript40 :=
  select_key_moments_short_circuit none transcript40 60 (by decide) (by decide)

/-! ### C7 — semantic-failure fallback -/

/-- C7: when the scoring oracle errors (modelled by `none`, the value the
`except` path of the source observes), `_select_by_text_importance`
returns exactly `_select_by_duration` of the same transcript and target
duration; no exception propagates (the embedding is a total function and
its failure branch is precisely the duration strategy). -/
theorem select_by_text_importance_fallback (transcript : List Segment)
    (target_duration : ℚ) :
    select_by_text_importance none transcript target_duration =
      select_by_duration transcript target_duration := rfl

/-! ### C10 — one untimed segment forces the text-only path -/

/-- C10: if at least one segment of the transcript lacks `start` or
`end`, then `select_key_moments` is exactly
`_select_by_text_importance(transcript, target_duration)` — none of the
short-circuit, duration-budget, merge or top-up steps run, even when the
other segments are timed and their total duration exceeds the target. -/
theorem select_key_moments_text_only_path (oracleSummary : Option String)
    (transcript : List Segment) (target_duration : ℚ)
    (h : ∃ seg ∈ transcript, seg.timed = false) :
    select_key_moments oracleSummary transcript target_duration =
      select_by_text_importance oracleSummary transcript target_duration := by
  obtain ⟨seg, hmem, hseg⟩ := h
  have hall : transcript.all Segment.timed = false := by
    simp only [List.all_eq_false]
    exact ⟨seg, hmem, by simp [hseg]⟩
  simp [select_key_moments, hall]

/-- Witness for C10: a transcript whose second segment lacks `end` takes
the text-only path. -/
theorem select_key_moments_text_only_path_witness :
    select_key_moments none transcriptUntimed 10 =
      select_by_text_importance none transcriptUntimed 10 :=
  select_key_moments_text_only_path none transcriptUntimed 10
    ⟨{ id := some 1, start := some 25, text := some "general words" }, by decide, by decide⟩

/-! ### C4 — Scenario A duration-strategy count -/

/-- C4 counterexample: on Scenario A (10 contiguous 10-second segments,
`targetDuration = 60`), `_select_by_duration` does NOT select exactly 6
segments. -/
theorem select_by_duration_scenarioA_not_six :
    ¬ ((select_by_duration scenarioA 60).length = 6) := by decide

/-- C4 amended: on Scenario A, `_select_by_duration` selects exactly 7
segments (ids 0 through 6): seven 10-second segments total 70s, which is
within the `1.3 × 60 = 78`-second cap, and an eighth would reach 80s. -/
theorem select_by_duration_scenarioA_seven :
    (select_by_duration scenarioA 60).map Segment.idOr0 = [0, 1, 2, 3, 4, 5, 6] := by
  decide

/-! ### Arithmetic facts about the selection components -/

lemma sumTimedDur_nil : sumTimedDur [] = 0 := rfl

lemma sumTimedDur_cons (a : Segment) (l : List Segment) :
    sumTimedDur (a :: l) = a.durOr0 + sumTimedDur l := by
  simp [sumTimedDur]

lemma sumTimedDur_append (l₁ l₂ : List Segment) :
    sumTimedDur (l₁ ++ l₂) = sumTimedDur l₁ + sumTimedDur l₂ := by
  simp [sumTimedDur]

lemma sumTimedDur_insertionSort (r : Segment → Segment → Prop) [DecidableRel r]
    (l : List Segment) : sumTimedDur (l.insertionSort r) = sumTimedDur l :=
  List.Perm.sum_eq (List.Perm.map _ (List.perm_insertionSort r l))

lemma pairWithDuration_eq {seg : Segment} {p : Segment × ℚ}
    (h : pairWithDuration seg = some p) : p.1 = seg ∧ p.2 = seg.durOr0 := by
  cases ha : seg.start <;> cases hb : seg.end_ <;>
    simp [pairWithDuration, ha, hb] at h <;>
    simp [← h, Segment.durOr0, ha, hb]

lemma availPair_eq {used : List Int} {seg : Segment} {p : Segment × ℚ}
    (h : availPair used seg = some p) : p.1 = seg ∧ p.2 = seg.durOr0 := by
  cases hi : seg.id <;> cases ha : seg.start <;> cases hb : seg.end_ <;>
    simp [availPair, hi, ha, hb] at h
  rcases h with ⟨-, h⟩
  simp [← h, Segment.durOr0, ha, hb]

lemma sum_snd_filterMap_pairWithDuration (t : List Segment) :
    ((t.filterMap pairWithDuration).map Prod.snd).sum = sumTimedDur t := by
  induction t with
  | nil => rfl
  | cons a l ih =>
    cases ha : a.start <;> cases hb : a.end_ <;>
      simp [pairWithDuration, ha, hb, sumTimedDur_cons, Segment.durOr0, ih]

lemma mem_of_mem_greedyPairs {allowed : ℚ} :
    ∀ {l : List (Segment × ℚ)} {cur : ℚ} {p : Segment × ℚ},
      p ∈ greedyPairs allowed l cur → p ∈ l := by
  intro l
  induction l with
  | nil => intro cur p h; simp [greedyPairs] at h
  | cons q rest ih =>
    intro cur p h
    by_cases hq : cur + q.2 ≤ allowed
    · rw [greedyPairs, if_pos hq] at h
      rcases List.mem_cons.1 h with h | h
      · exact h ▸ List.mem_cons_self q rest
      · exact List.mem_cons_of_mem _ (ih h)
    · rw [greedyPairs, if_neg hq] at h
      exact List.mem_cons_of_mem _ (ih h)

lemma pairSum_greedyPairs (allowed : ℚ) :
    ∀ (l : List (Segment × ℚ)) (cur : ℚ),
      cur + ((greedyPairs allowed l cur).map Prod.snd).sum ≤ max cur allowed := by
  intro l
  induction l with
  | nil => intro cur; simpa [greedyPairs] using le_max_left cur allowed
  | cons q rest ih =>
    intro cur
    by_cases hq : cur + q.2 ≤ allowed
    · rw [greedyPairs, if_pos hq]
      have := ih (cur + q.2)
      have hmax : max (cur + q.2) allowed = allowed := max_eq_right hq
      rw [hmax] at this
      have : cur + q.2 + ((greedyPairs allowed rest (cur + q.2)).map Prod.snd).sum ≤
          max cur allowed := le_trans this (le_max_right _ _)
      simpa [add_assoc] using this
    · rw [greedyPairs, if_neg hq]
      exact ih cur

lemma sumTimedDur_map_fst {l : List (Segment × ℚ)}
    (h : ∀ p ∈ l, (Prod.fst p).durOr0 = p.2) :
    sumTimedDur (l.map Prod.fst) = (l.map Prod.snd).sum := by
  unfold sumTimedDur
  rw [List.map_map]
  congr 1
  exact List.map_congr_left h

/-- Duration bound of the duration strategy: the accepted set stays within
`target_duration * 1.3` (the untrimmed branches return at most the whole
transcript, whose duration is then 0). -/
lemma select_by_duration_bound (t : List Segment) (T : ℚ) (hT : 0 ≤ T) :
    sumTimedDur (select_by_duration t T) ≤ T * (13 / 10) := by
  have hcap : (0 : ℚ) ≤ T * (13 / 10) := by nlinarith
  rw [select_by_duration]
  by_cases h0 : t.isEmpty
  · rw [if_pos h0]
    simpa [sumTimedDur] using hcap
  · rw [if_neg h0]
    dsimp only
    by_cases h1 : ((t.filterMap pairWithDuration).map Prod.snd).sum = 0
    · rw [if_pos h1]
      have := sum_snd_filterMap_pairWithDuration t
      rw [h1] at this
      rw [← this]
      exact hcap
    · rw [if_neg h1]
      rw [sumTimedDur_insertionSort]
      have hgood : ∀ p ∈ (t.filterMap pairWithDuration).insertionSort durGe,
          (Prod.fst p).durOr0 = p.2 := by
        intro p hp
        have hp2 : p ∈ t.filterMap pairWithDuration :=
          (List.perm_insertionSort durGe _).mem_iff.1 hp
        obtain ⟨seg, -, hseg⟩ := List.mem_filterMap.1 hp2
        obtain ⟨he1, he2⟩ := pairWithDuration_eq hseg
        rw [he1, he2]
      have hsum := pairSum_greedyPairs (T * (13 / 10))
        ((t.filterMap pairWithDuration).insertionSort durGe) 0
      rw [max_eq_right hcap] at hsum
      rw [sumTimedDur_map_fst (fun p hp => hgood p (mem_of_mem_greedyPairs hp))]
      linarith

lemma textGreedy_bound (allowed : ℚ) :
    ∀ (l : List Segment) (cur : ℚ),
      cur + sumTimedDur (textGreedy allowed l cur) ≤ max cur allowed := by
  intro l
  induction l with
  | nil => intro cur; simpa [textGreedy, sumTimedDur] using le_max_left cur allowed
  | cons seg rest ih =>
    intro cur
    obtain ⟨i, s, e, tx, sc, st, ot⟩ := seg
    cases s with
    | none =>
      have : sumTimedDur (textGreedy allowed
          ({ id := i, start := none, end_ := e, text := tx, score := sc,
             script_text := st, original_text := ot } :: rest) cur) =
          sumTimedDur (textGreedy allowed rest cur) := by
        cases e <;> simp [textGreedy, sumTimedDur_cons, Segment.durOr0]
      rw [this]; exact ih cur
    | some a =>
      cases e with
      | none =>
        have : sumTimedDur (textGreedy allowed
            ({ id := i, start := some a, end_ := none, text := tx, score := sc,
               script_text := st, original_text := ot } :: rest) cur) =
            sumTimedDur (textGreedy allowed rest cur) := by
          simp [textGreedy, sumTimedDur_cons, Segment.durOr0]
        rw [this]; exact ih cur
      | some b =>
        simp only [textGreedy]
        by_cases hq : cur + (b - a) ≤ allowed
        · rw [if_pos hq]
          have := ih (cur + (b - a))
          rw [max_eq_right hq] at this
          have h2 : cur + (b - a) + sumTimedDur (textGreedy allowed rest (cur + (b - a))) ≤
              max cur allowed := le_trans this (le_max_right _ _)
          simpa [sumTimedDur_cons, Segment.durOr0, add_assoc] using h2
        · rw [if_neg hq]
          exact ih cur

/-- Duration bound of the semantic strategy: at most `target * 1.2` on
oracle success, at most `target * 1.3` on fallback — so at most
`target * 1.3` in all cases. -/
lemma select_by_text_importance_bound (o : Option String) (t : List Segment)
    (T : ℚ) (hT : 0 ≤ T) :
    sumTimedDur (select_by_text_importance o t T) ≤ T * (13 / 10) := by
  cases o with
  | none => exact select_by_duration_bound t T hT
  | some s =>
    rw [select_by_text_importance]
    rw [sumTimedDur_insertionSort]
    have h12 : (0 : ℚ) ≤ T * (12 / 10) := by nlinarith
    have := textGreedy_bound (T * (12 / 10))
      ((t.filterMap (scoreSegment (wordSet s))).insertionSort scoreGe) 0
    rw [max_eq_right h12] at this
    nlinarith

lemma mergeStep_bound (T : ℚ) (acc : List Segment × List Int) (seg : Segment) :
    sumTimedDur (mergeStep T acc seg).1 ≤ max (sumTimedDur acc.1) (T * (14 / 10)) := by
  rw [mergeStep]
  cases seg.id with
  | none => exact le_max_left _ _
  | some i =>
    dsimp only
    split_ifs with h1 h2
    · exact le_max_left _ _
    · simp only [sumTimedDur_append, sumTimedDur_cons, sumTimedDur_nil]
      have : sumTimedDur acc.1 + (seg.durOr0 + 0) ≤ T * (14 / 10) := by linarith
      exact le_trans this (le_max_right _ _)
    · exact le_max_left _ _

lemma mergeFold_bound (T : ℚ) :
    ∀ (l : List Segment) (acc : List Segment × List Int),
      sumTimedDur ((l.foldl (mergeStep T) acc).1) ≤
        max (sumTimedDur acc.1) (T * (14 / 10)) := by
  intro l
  induction l with
  | nil => intro acc; exact le_max_left _ _
  | cons seg rest ih =>
    intro acc
    rw [List.foldl_cons]
    exact le_trans (ih (mergeStep T acc seg))
      (max_le (mergeStep_bound T acc seg) (le_max_right _ _))

lemma select_additional_content_bound (t : List Segment) (rem : ℚ)
    (used : List Int) (hrem : 0 ≤ rem) :
    sumTimedDur (select_additional_content t rem used) ≤ rem * (14 / 10) := by
  have hcap : (0 : ℚ) ≤ rem * (14 / 10) := by nlinarith
  rw [select_additional_content]
  have hgood : ∀ p ∈ (t.filterMap (availPair used)).insertionSort (fitLe rem),
      (Prod.fst p).durOr0 = p.2 := by
    intro p hp
    have hp2 : p ∈ t.filterMap (availPair used) :=
      (List.perm_insertionSort (fitLe rem) _).mem_iff.1 hp
    obtain ⟨seg, -, hseg⟩ := List.mem_filterMap.1 hp2
    obtain ⟨h1, h2⟩ := availPair_eq hseg
    rw [h1, h2]
  have hsum := pairSum_greedyPairs (rem * (14 / 10))
    ((t.filterMap (availPair used)).insertionSort (fitLe rem)) 0
  rw [max_eq_right hcap] at hsum
  rw [sumTimedDur_map_fst (fun p hp => hgood p (mem_of_mem_greedyPairs hp))]
  linarith

/-! ### C1 — the selection duration ceiling -/

/-- Two timed segments of 100s and 55s with identical text. -/
def transcriptC1 : List Segment :=
  [{ id := some 0, start := some 0, end_ := some 100, text := some "a" },
   { id := some 1, start := some 100, end_ := some 155, text := some "a" }]

/-- C1 counterexample: a fully timed transcript with total duration
155 > targetDuration = 100 on which the realized selection duration
exceeds `targetDuration * 1.4`: both segments score 1.0 against the
summary and the semantic greedy pass alone may keep up to
`(target * 1.3) * 1.2 = 1.56 × target`, here 155s > 140s. -/
theorem select_key_moments_cap_counterexample :
    transcriptC1.all Segment.timed = true ∧
    100 < sumTimedDur transcriptC1 ∧
    ¬ (sumTimedDur (select_key_moments (some "a") transcriptC1 100) ≤
        100 * (14 / 10)) := by decide

/-- C1 amended: for every fully timed transcript with total duration
exceeding the (nonnegative) target, the realized selection duration is at
most `targetDuration * 1.69`.  The `1.4 × target` cap gates only the
segments added by the merge and top-up steps; the base semantic selection
runs against the over-asked `1.3 × target` and may keep `1.2 ×` that on
oracle success or `1.3 ×` that on fallback, giving the true hard ceiling
`1.3 * 1.3 = 1.69`. -/
theorem select_key_moments_duration_ceiling (oracleSummary : Option String)
    (transcript : List Segment) (target_duration : ℚ)
    (h0 : 0 ≤ target_duration)
    (ht : transcript.all Segment.timed)
    (hD : target_duration < sumTimedDur transcript) :
    sumTimedDur (select_key_moments oracleSummary transcript target_duration) ≤
      target_duration * (169 / 100) := by
  have hadj : (0 : ℚ) ≤ target_duration * (13 / 10) := by nlinarith
  have hbt : sumTimedDur (select_by_text_importance oracleSummary transcript
      (target_duration * (13 / 10))) ≤ target_duration * (169 / 100) := by
    have := select_by_text_importance_bound oracleSummary transcript
      (target_duration * (13 / 10)) hadj
    nlinarith
  rw [select_key_moments]
  dsimp only
  rw [if_neg (by simp [ht])]
  rw [if_neg (not_le.mpr hD)]
  set M := (select_by_duration transcript (target_duration * (13 / 10))).foldl
      (mergeStep target_duration)
      (select_by_text_importance oracleSummary transcript (target_duration * (13 / 10)),
       (select_by_text_importance oracleSummary transcript
          (target_duration * (13 / 10))).filterMap Segment.id) with hMdef
  have hmerged : sumTimedDur M.1 ≤ target_duration * (169 / 100) := by
    rw [hMdef]
    refine le_trans (mergeFold_bound target_duration _ _) (max_le hbt ?_)
    nlinarith
  have hfinal : sumTimedDur (M.1.insertionSort idLe) ≤ target_duration * (169 / 100) := by
    rw [sumTimedDur_insertionSort]; exact hmerged
  split_ifs with htop
  · rw [sumTimedDur_insertionSort, sumTimedDur_append]
    obtain ⟨hlow, hpos⟩ := htop
    have hremnn : (0 : ℚ) ≤
        target_duration - sumTimedDur (M.1.insertionSort idLe) := by nlinarith
    have hadd := select_additional_content_bound transcript
      (target_duration - sumTimedDur (M.1.insertionSort idLe)) M.2 hremnn
    nlinarith [hadd, hfinal, hpos, hlow]
  · exact hfinal

/-- Witness for the C1 amended theorem at the concrete counterexample
input: the realized duration 155 is indeed at most `100 * 1.69`. -/
theorem select_key_moments_duration_ceiling_witness :
    sumTimedDur (select_key_moments (some "a") transcriptC1 100) ≤
      100 * (169 / 100) :=
  select_key_moments_duration_ceiling (some "a") transcriptC1 100
    (by norm_num) (by decide) (by decide)

/-! ### C3 — non-emptiness of the selection -/

lemma exists_pos_of_sum_pos : ∀ {l : List ℚ}, 0 < l.sum → ∃ x ∈ l, 0 < x := by
  intro l
  induction l with
  | nil => intro h; simp at h
  | cons a rest ih =>
    intro h
    by_cases ha : 0 < a
    · exact ⟨a, List.mem_cons_self a rest, ha⟩
    · push_neg at ha
      rw [List.sum_cons] at h
      obtain ⟨x, hx, hxp⟩ := ih (by linarith)
      exact ⟨x, List.mem_cons_of_mem _ hx, hxp⟩

lemma length_filterMap_pairWithDuration {t : List Segment}
    (ht : t.all Segment.timed) :
    (t.filterMap pairWithDuration).length = t.length := by
  induction t with
  | nil => rfl
  | cons a rest ih =>
    rw [List.all_cons, Bool.and_eq_true] at ht
    obtain ⟨ha, hrest⟩ := ht
    rw [Segment.timed, Bool.and_eq_true, Option.isSome_iff_exists,
      Option.isSome_iff_exists] at ha
    obtain ⟨⟨x, hx⟩, ⟨y, hy⟩⟩ := ha
    simp [pairWithDuration, hx, hy, ih hrest]

lemma length_filterMap_scoreSegment (w : List String) {t : List Segment}
    (htext : ∀ seg ∈ t, seg.text.isSome) :
    (t.filterMap (scoreSegment w)).length = t.length := by
  induction t with
  | nil => rfl
  | cons a rest ih =>
    have ha := htext a (List.mem_cons_self a rest)
    rw [Option.isSome_iff_exists] at ha
    obtain ⟨x, hx⟩ := ha
    simp [scoreSegment, hx,
      ih (fun seg hseg => htext seg (List.mem_cons_of_mem _ hseg))]

lemma scoreSegment_durOr0 {w : List String} {seg s' : Segment}
    (h : scoreSegment w seg = some s') : s'.durOr0 = seg.durOr0 := by
  cases hx : seg.text <;> simp [scoreSegment, hx] at h
  simp [← h, Segment.durOr0]

lemma textGreedy_cons_ne_nil (allowed : ℚ) (x : Segment) (xs : List Segment)
    (h : x.durOr0 ≤ allowed) : textGreedy allowed (x :: xs) 0 ≠ [] := by
  obtain ⟨i, s, e, tx, sc, st, ot⟩ := x
  cases s with
  | none => cases e <;> simp [textGreedy]
  | some a =>
    cases e with
    | none => simp [textGreedy]
    | some b =>
      have hd : (0 : ℚ) + (b - a) ≤ allowed := by
        simpa [Segment.durOr0] using h
      simp only [textGreedy]
      rw [if_pos hd]
      simp

lemma length_le_mergeStep (T : ℚ) (acc : List Segment × List Int)
    (seg : Segment) : acc.1.length ≤ (mergeStep T acc seg).1.length := by
  rw [mergeStep]
  cases seg.id with
  | none => exact le_rfl
  | some i =>
    dsimp only
    split_ifs <;> simp

lemma length_le_mergeFold (T : ℚ) :
    ∀ (l : List Segment) (acc : List Segment × List Int),
      acc.1.length ≤ ((l.foldl (mergeStep T) acc).1).length := by
  intro l
  induction l with
  | nil => intro acc; exact le_rfl
  | cons seg rest ih =>
    intro acc
    rw [List.foldl_cons]
    exact le_trans (length_le_mergeStep T acc seg) (ih (mergeStep T acc seg))

lemma select_by_duration_ne_nil (t : List Segment) (T : ℚ)
    (hne : t ≠ []) (ht : t.all Segment.timed) (hpos : 0 < sumTimedDur t)
    (hdur : ∀ seg ∈ t, seg.durOr0 ≤ T * (13 / 10)) :
    select_by_duration t T ≠ [] := by
  rw [select_by_duration]
  rw [if_neg (by simpa using hne)]
  dsimp only
  have htot : ((t.filterMap pairWithDuration).map Prod.snd).sum = sumTimedDur t :=
    sum_snd_filterMap_pairWithDuration t
  rw [if_neg (by rw [htot]; exact ne_of_gt hpos)]
  have hlen : ((t.filterMap pairWithDuration).insertionSort durGe).length = t.length := by
    rw [List.length_insertionSort, length_filterMap_pairWithDuration ht]
  cases hs : (t.filterMap pairWithDuration).insertionSort durGe with
  | nil =>
    exfalso
    rw [hs] at hlen
    simp only [List.length_nil] at hlen
    exact hne (List.length_eq_zero.1 hlen.symm)
  | cons p ps =>
    have hpmem : p ∈ t.filterMap pairWithDuration := by
      have : p ∈ (t.filterMap pairWithDuration).insertionSort durGe := by
        rw [hs]; exact List.mem_cons_self p ps
      exact (List.perm_insertionSort durGe _).mem_iff.1 this
    obtain ⟨seg, hsegmem, hseg⟩ := List.mem_filterMap.1 hpmem
    obtain ⟨-, hp2⟩ := pairWithDuration_eq hseg
    have hfit : (0 : ℚ) + p.2 ≤ T * (13 / 10) := by
      rw [hp2, zero_add]; exact hdur seg hsegmem
    simp only [greedyPairs]
    rw [if_pos hfit]
    intro hcontra
    have hlenc := congrArg List.length hcontra
    rw [List.length_insertionSort, List.length_map] at hlenc
    simp at hlenc

lemma select_by_text_importance_ne_nil (o : Option String) (t : List Segment)
    (T : ℚ) (hne : t ≠ []) (ht : t.all Segment.timed)
    (htext : ∀ seg ∈ t, seg.text.isSome)
    (hpos : 0 < sumTimedDur t) (hT0 : 0 ≤ T)
    (hdur : ∀ seg ∈ t, seg.durOr0 ≤ T) :
    select_by_text_importance o t T ≠ [] := by
  cases o with
  | none =>
    refine select_by_duration_ne_nil t T hne ht hpos (fun seg hseg => ?_)
    have := hdur seg hseg
    nlinarith
  | some s =>
    rw [select_by_text_importance]
    have hlen : ((t.filterMap (scoreSegment (wordSet s))).insertionSort scoreGe).length
        = t.length := by
      rw [List.length_insertionSort, length_filterMap_scoreSegment _ htext]
    cases hsrt : (t.filterMap (scoreSegment (wordSet s))).insertionSort scoreGe with
    | nil =>
      exfalso
      rw [hsrt] at hlen
      simp only [List.length_nil] at hlen
      exact hne (List.length_eq_zero.1 hlen.symm)
    | cons x xs =>
      have hxmem : x ∈ t.filterMap (scoreSegment (wordSet s)) := by
        have : x ∈ (t.filterMap (scoreSegment (wordSet s))).insertionSort scoreGe := by
          rw [hsrt]; exact List.mem_cons_self x xs
        exact (List.perm_insertionSort scoreGe _).mem_iff.1 this
      obtain ⟨seg, hsegmem, hseg⟩ := List.mem_filterMap.1 hxmem
      have hxd : x.durOr0 ≤ T * (12 / 10) := by
        rw [scoreSegment_durOr0 hseg]
        have := hdur seg hsegmem
        nlinarith
      have hg := textGreedy_cons_ne_nil (T * (12 / 10)) x xs hxd
      intro hcontra
      have := congrArg List.length hcontra
      rw [List.length_insertionSort] at this
      exact hg (List.length_eq_zero.1 this)

/-- The transcript of a single 100-second segment: longer than every cap
once the 60-second target is exceeded. -/
def transcriptC3 : List Segment :=
  [{ id := some 0, start := some 0, end_ := some 100, text := some "a" }]

/-- C3 counterexample: a non-empty, fully timed transcript with total
duration 100 > 0 (and > target) on which `select_key_moments` returns the
empty selection: the single 100s segment exceeds the semantic allowance
`1.56 × 60 = 93.6`s, the merge cap `1.4 × 60 = 84`s, and the top-up pass
never runs because the realized duration is 0, not positive. -/
theorem select_key_moments_empty_counterexample :
    transcriptC3 ≠ [] ∧ 0 < sumTimedDur transcriptC3 ∧
      select_key_moments (some "a") transcriptC3 60 = [] := by decide

/-- C3 amended: the selector returns a non-empty selection whenever the
transcript is non-empty with positive total duration, every segment
carries timing and text, and every individual segment duration is at most
`targetDuration` (so some segment always fits each greedy cap).  Without
the per-segment bound the selection can be empty, as the counterexample
shows. -/
theorem select_key_moments_ne_nil (oracleSummary : Option String)
    (transcript : List Segment) (target_duration : ℚ)
    (hne : transcript ≠ [])
    (ht : transcript.all Segment.timed)
    (htext : ∀ seg ∈ transcript, seg.text.isSome)
    (hdur : ∀ seg ∈ transcript, seg.durOr0 ≤ target_duration)
    (hpos : 0 < sumTimedDur transcript) :
    select_key_moments oracleSummary transcript target_duration ≠ [] := by
  have h0 : 0 < target_duration := by
    obtain ⟨d, hd, hdp⟩ := exists_pos_of_sum_pos (l := transcript.map Segment.durOr0)
      (by simpa [sumTimedDur] using hpos)
    obtain ⟨seg, hsegmem, rfl⟩ := List.mem_map.1 hd
    exact lt_of_lt_of_le hdp (hdur seg hsegmem)
  rw [select_key_moments]
  dsimp only
  rw [if_neg (by simp [ht])]
  by_cases hle : sumTimedDur transcript ≤ target_duration
  · rw [if_pos hle]; exact hne
  · rw [if_neg hle]
    have hbtne : select_by_text_importance oracleSummary transcript
        (target_duration * (13 / 10)) ≠ [] := by
      refine select_by_text_importance_ne_nil oracleSummary transcript _ hne ht htext
        hpos (by nlinarith) (fun seg hseg => ?_)
      have := hdur seg hseg
      nlinarith
    set M := (select_by_duration transcript (target_duration * (13 / 10))).foldl
        (mergeStep target_duration)
        (select_by_text_importance oracleSummary transcript (target_duration * (13 / 10)),
         (select_by_text_importance oracleSummary transcript
            (target_duration * (13 / 10))).filterMap Segment.id) with hMdef
    have hMlen : 0 < M.1.length := by
      rw [hMdef]
      refine lt_of_lt_of_le ?_ (length_le_mergeFold target_duration _ _)
      exact List.length_pos.mpr hbtne
    have hfinlen : 0 < (M.1.insertionSort idLe).length := by
      rw [List.length_insertionSort]; exact hMlen
    split_ifs with htop
    · intro hcontra
      have hlen2 := congrArg List.length hcontra
      rw [List.length_insertionSort, List.length_append,
        List.length_insertionSort] at hlen2
      simp only [List.length_nil] at hlen2
      omega
    · exact List.length_pos.mp hfinlen

/-- Two timed, texted 40-second segments (for the C3 witness). -/
def transcriptC3w : List Segment :=
  [{ id := some 0, start := some 0, end_ := some 40, text := some "a" },
   { id := some 1, start := some 40, end_ := some 80, text := some "b" }]

/-- Witness for the C3 amended theorem on a concrete transcript of two
40-second segments against a 60-second target. -/
theorem select_key_moments_ne_nil_witness :
    select_key_moments (some "a") transcriptC3w 60 ≠ [] :=
  select_key_moments_ne_nil (some "a") transcriptC3w 60 (by decide) (by decide)
    (by decide) (by decide) (by decide)

/-! ### The segment partitioner (`src/video_editing.py`) -/

/-- Comparator for `valid_segments.sort(key=lambda x: x['start'])`
(every valid segment carries `start`). -/
def startLe (a b : Segment) : Prop :=
  a.start.getD 0 ≤ b.start.getD 0

instance : DecidableRel startLe :=
  fun a b => inferInstanceAs (Decidable (a.start.getD 0 ≤ b.start.getD 0))

/-- The forward-fill loop of `_divide_segments_for_multiple_videos`:
`g` is `current_group`, `d` is `current_duration`, `cur` holds the
current group's members in reverse.  When adding the next segment would
exceed the per-video target and the current group is not the last, the
loop advances to a fresh group (whose duration restarts at the new
segment's duration, since the segment is appended right after the reset). -/
def divideWalk (per : ℚ) (num_videos : Nat) :
    List Segment → Nat → ℚ → List Segment → List (List Segment)
  | [], _, _, cur => [cur.reverse]
  | seg :: rest, g, d, cur =>
    if d + seg.durOr0 > per ∧ g < num_videos - 1 then
      cur.reverse :: divideWalk per num_videos rest (g + 1) seg.durOr0 [seg]
    else divideWalk per num_videos rest g (d + seg.durOr0) (seg :: cur)

/-- `_divide_segments_for_multiple_videos(segments, num_videos)` from
`src/video_editing.py`. -/
def divide_segments_for_multiple_videos (segments : List Segment)
    (num_videos : Nat) : List (List Segment) :=
  if num_videos ≤ 1 then [segments]
  else
    let valid_segments := segments.filter Segment.timed
    if valid_segments.isEmpty then [[]]
    else
      let sorted := valid_segments.insertionSort startLe
      let total_duration := sumTimedDur sorted
      let target_duration_per_video := total_duration / num_videos
      (divideWalk target_duration_per_video num_videos sorted 0 0 []).filter
        (fun g => !g.isEmpty)

/-- The ids of the valid-timed members of a segment list. -/
def idsValid (l : List Segment) : List Int :=
  l.filterMap (fun s => if s.timed then s.id else none)

lemma flatten_divideWalk (per : ℚ) (n : Nat) :
    ∀ (l : List Segment) (g : Nat) (d : ℚ) (cur : List Segment),
      (divideWalk per n l g d cur).flatten = cur.reverse ++ l := by
  intro l
  induction l with
  | nil => intro g d cur; simp [divideWalk]
  | cons seg rest ih =>
    intro g d cur
    rw [divideWalk]
    split_ifs with h
    · rw [List.flatten_cons, ih]
      simp
    · rw [ih]
      simp

lemma flatten_filter_not_isEmpty {α : Type} (L : List (List α)) :
    (L.filter (fun g => !g.isEmpty)).flatten = L.flatten := by
  induction L with
  | nil => rfl
  | cons g rest ih =>
    by_cases hg : g.isEmpty
    · have : g = [] := List.isEmpty_iff.1 hg
      simp [List.filter_cons, hg, this, ih]
    · simp [List.filter_cons, hg, ih]

lemma idsValid_append (l₁ l₂ : List Segment) :
    idsValid (l₁ ++ l₂) = idsValid l₁ ++ idsValid l₂ := by
  simp [idsValid]

lemma idsValid_flatten (L : List (List Segment)) :
    idsValid L.flatten = (L.map idsValid).flatten := by
  induction L with
  | nil => rfl
  | cons g rest ih => simp [idsValid_append, ih]

lemma filterMap_filter_eq {α β : Type} (p : α → Bool) (f : α → Option β)
    (hf : ∀ a, p a = false → f a = none) :
    ∀ l : List α, (l.filter p).filterMap f = l.filterMap f := by
  intro l
  induction l with
  | nil => rfl
  | cons a rest ih =>
    by_cases ha : p a
    · cases hfa : f a <;>
        simp [List.filter_cons, ha, List.filterMap_cons, hfa, ih]
    · simp [List.filter_cons, ha, List.filterMap_cons,
        hf a (by simpa using ha), ih]

lemma idsValid_filter_timed (segments : List Segment) :
    idsValid (segments.filter Segment.timed) = idsValid segments :=
  filterMap_filter_eq Segment.timed _ (fun a ha => by simp [ha]) segments

lemma idsValid_perm {l₁ l₂ : List Segment} (h : l₁.Perm l₂) :
    (idsValid l₁).Perm (idsValid l₂) :=
  h.filterMap _

/-- The flattened output of the partitioner for `n ≥ 2` is exactly the
valid segments in ascending `start` order. -/
lemma flatten_divide (segments : List Segment) (n : Nat) (hn : 2 ≤ n)
    (hne : ¬ (segments.filter Segment.timed).isEmpty) :
    (divide_segments_for_multiple_videos segments n).flatten =
      (segments.filter Segment.timed).insertionSort startLe := by
  rw [divide_segments_for_multiple_videos, if_neg (by omega)]
  dsimp only
  rw [if_neg hne]
  rw [flatten_filter_not_isEmpty, flatten_divideWalk]
  simp

/-! ### C6 — partitioner coverage -/

/-- Two timed segments that share id 0 (violating the data-model
uniqueness invariant, but a legal `List Segment`). -/
def dupA : Segment := { id := some 0, start := some 0, end_ := some 10 }

/-- Second segment with the duplicated id. -/
def dupB : Segment := { id := some 0, start := some 10, end_ := some 20 }

/-- C6 counterexample: the claim quantifies over every segment list, but
on a list where two valid-timed segments share an id the partitioner
places that id in two different groups (with `n = 2`, one 10-second
segment per group), so "no id occurs in two different groups" fails. -/
theorem divide_segments_dup_id_counterexample :
    ¬ ((divide_segments_for_multiple_videos [dupA, dupB] 2).Pairwise
        (fun g1 g2 => ∀ i : Int, i ∈ idsValid g1 → i ∉ idsValid g2)) := by
  intro h
  have hdiv : divide_segments_for_multiple_videos [dupA, dupB] 2 =
      [[dupA], [dupB]] := by decide
  rw [hdiv] at h
  rcases List.pairwise_cons.1 h with ⟨h1, -⟩
  exact (h1 [dupB] (List.mem_cons_self _ _) 0 (by decide)) (by decide)

/-- C6 amended: for every segment list whose valid-timed segments carry
pairwise-distinct ids (the data-model invariant of §3) and every
`n ≥ 1`, the union over the returned groups of the ids of valid-timed
members equals the set of valid-timed input ids, and no id occurs in two
different groups. -/
theorem divide_segments_partition_coverage (segments : List Segment)
    (n : Nat) (hn : 1 ≤ n) (hnd : (idsValid segments).Nodup) :
    (∀ i : Int, i ∈ idsValid segments ↔
      ∃ g ∈ divide_segments_for_multiple_videos segments n, i ∈ idsValid g) ∧
    (divide_segments_for_multiple_videos segments n).Pairwise
      (fun g1 g2 => ∀ i : Int, i ∈ idsValid g1 → i ∉ idsValid g2) := by
  by_cases h1 : n ≤ 1
  · rw [divide_segments_for_multiple_videos, if_pos h1]
    constructor
    · intro i
      simp
    · simp
  · have h2 : 2 ≤ n := by omega
    by_cases hval : (segments.filter Segment.timed).isEmpty
    · have hids : idsValid segments = [] := by
        rw [← idsValid_filter_timed, List.isEmpty_iff.1 hval]
        rfl
      rw [divide_segments_for_multiple_videos, if_neg (by omega)]
      dsimp only
      rw [if_pos hval]
      constructor
      · intro i
        rw [hids]
        simp only [List.mem_singleton, List.not_mem_nil, false_iff, not_exists]
        rintro g ⟨rfl, hig⟩
        simp [idsValid] at hig
      · simp
    · have hflat := flatten_divide segments n h2 hval
      have hperm : (idsValid ((divide_segments_for_multiple_videos segments n).flatten)).Perm
          (idsValid segments) := by
        rw [hflat, ← idsValid_filter_timed segments]
        exact idsValid_perm (List.perm_insertionSort startLe _)
      constructor
      · intro i
        rw [← hperm.mem_iff]
        rw [idsValid_flatten, List.mem_flatten]
        constructor
        · rintro ⟨l, hl, hil⟩
          obtain ⟨g, hg, rfl⟩ := List.mem_map.1 hl
          exact ⟨g, hg, hil⟩
        · rintro ⟨g, hg, hig⟩
          exact ⟨idsValid g, List.mem_map_of_mem _ hg, hig⟩
      · have hnd2 : (idsValid ((divide_segments_for_multiple_videos segments n).flatten)).Nodup :=
          hperm.nodup_iff.2 hnd
        rw [idsValid_flatten] at hnd2
        have hpw := (List.nodup_flatten.1 hnd2).2
        have := List.pairwise_map.1 hpw
        exact this.imp (fun hd i hi1 hi2 => hd hi1 hi2)

/-- Witness for the C6 amended theorem: the two-segment transcript with
distinct ids 0 and 1 partitioned into two videos. -/
theorem divide_segments_partition_coverage_witness :
    (∀ i : Int, i ∈ idsValid transcript40 ↔
      ∃ g ∈ divide_segments_for_multiple_videos transcript40 2, i ∈ idsValid g) ∧
    (divide_segments_for_multiple_videos transcript40 2).Pairwise
      (fun g1 g2 => ∀ i : Int, i ∈ idsValid g1 → i ∉ idsValid g2) :=
  divide_segments_partition_coverage transcript40 2 (by norm_num) (by decide)

/-! ### The transcript normalizer (`src/audio_processing.py`) -/

/-- Whether `pat` is an initial run of `s` (character-wise). -/
def leadsWith : List Char → List Char → Bool
  | [], _ => true
  | _ :: _, [] => false
  | p :: ps, c :: cs => p == c && leadsWith ps cs

/-- Python `str.replace(pat, rep)` on character lists: leftmost-first,
non-overlapping, and the replacement text is not rescanned.  The fuel
argument is an upper bound on the number of characters consumed; callers
pass the string length (each step consumes at least one character, and a
match consumes `pat.length ≥ 1` of them, so the fuel never runs out). -/
def replaceAux (pat rep : List Char) : Nat → List Char → List Char
  | _, [] => []
  | 0, s => s
  | n + 1, c :: rest =>
    if leadsWith pat (c :: rest) && !pat.isEmpty then
      rep ++ replaceAux pat rep n ((c :: rest).drop pat.length)
    else c :: replaceAux pat rep n rest

/-- Python `s.replace(pat, rep)` for the non-empty patterns the
normalizer uses. -/
def pyReplace (s pat rep : String) : String :=
  (replaceAux pat.data rep.data s.data.length s.data).asString

/-- Whether `pat` occurs as a contiguous run inside `s`. -/
def containsPat (pat : List Char) : List Char → Bool
  | [] => false
  | c :: rest => leadsWith pat (c :: rest) || containsPat pat rest

/-- The fallback branch of `remove_filler_words` (the branch taken when
the spaCy model cannot be loaded, `src/audio_processing.py` lines
124-136): for each segment with text, every filler `f` is removed via
`text = text.replace(" " + f + " ", " ")`; records without text pass
through unchanged.  The spaCy branch delegates tokenization to an
external model (an oracle); the idempotence claim is settled on this
deterministic branch. -/
def remove_filler_words (transcript : List Segment)
    (filler_words : List String) : List Segment :=
  transcript.map (fun segment =>
    match segment.text with
    | some text =>
      { segment with text := some (filler_words.foldl
          (fun t f => pyReplace t (" " ++ f ++ " ") " ") text) }
    | none => segment)

lemma replaceAux_no_occurrence (pat rep : List Char) :
    ∀ (n : Nat) (s : List Char), containsPat pat s = false →
      replaceAux pat rep n s = s := by
  intro n
  induction n with
  | zero => intro s _; cases s <;> rfl
  | succ m ih =>
    intro s hs
    cases s with
    | nil => rfl
    | cons c rest =>
      rw [containsPat, Bool.or_eq_false_iff] at hs
      obtain ⟨h1, h2⟩ := hs
      rw [replaceAux, if_neg (by simp [h1]), ih rest h2]

lemma pyReplace_no_occurrence (s pat rep : String)
    (h : containsPat pat.data s.data = false) : pyReplace s pat rep = s := by
  rw [pyReplace, replaceAux_no_occurrence _ _ _ _ h]
  rfl

/-! ### C9 — idempotence of normalization -/

/-- The filler list of the counterexample. -/
def fillerList : List String := ["um"]

/-- One segment whose text holds two adjacent padded filler words. -/
def transcriptFiller : List Segment :=
  [{ id := some 0, start := some 0, end_ := some 2, text := some "x um um x" }]

/-- C9 counterexample: the normalizer is not idempotent.  On
`"x um um x"` with filler `"um"`, `replace(" um ", " ")` consumes the
separating space of the first occurrence, so one pass yields `"x um x"`
and a second pass yields `"x x"` — `normalize(normalize(t)) ≠ normalize(t)`. -/
theorem remove_filler_words_not_idempotent :
    remove_filler_words (remove_filler_words transcriptFiller fillerList)
        fillerList ≠
      remove_filler_words transcriptFiller fillerList := by decide

/-- C9 amended: on already-clean text — no segment text contains any
padded filler occurrence `" f "` — a single application of the normalizer
is a no-op; idempotence in general fails (see the counterexample), because
`str.replace` consumes the separator space between adjacent fillers. -/
theorem remove_filler_words_clean_noop (transcript : List Segment)
    (filler_words : List String)
    (h : ∀ seg ∈ transcript, ∀ tx, seg.text = some tx → ∀ f ∈ filler_words,
      containsPat (" " ++ f ++ " ").data tx.data = false) :
    remove_filler_words transcript filler_words = transcript := by
  rw [remove_filler_words]
  conv_rhs => rw [← List.map_id transcript]
  apply List.map_congr_left
  intro seg hseg
  cases htx : seg.text with
  | none => simp [htx]
  | some tx =>
    simp only [htx, id]
    have hfold : ∀ (fs : List String),
        (∀ f ∈ fs, containsPat (" " ++ f ++ " ").data tx.data = false) →
        fs.foldl (fun t f => pyReplace t (" " ++ f ++ " ") " ") tx = tx := by
      intro fs
      induction fs with
      | nil => intro _; rfl
      | cons f fs2 ih =>
        intro hall
        rw [List.foldl_cons,
          pyReplace_no_occurrence _ _ _ (hall f (List.mem_cons_self f fs2))]
        exact ih (fun g hg => hall g (List.mem_cons_of_mem _ hg))
    rw [hfold filler_words (h seg hseg tx htx)]
    obtain ⟨i, s, e, txf, sc, st, ot⟩ := seg
    simp_all

/-- Witness for the C9 amended theorem: on clean text the normalizer
returns the transcript unchanged. -/
theorem remove_filler_words_clean_noop_witness :
    remove_filler_words [{ id := some 0, text := some "hello there" }] ["um"] =
      [{ id := some 0, text := some "hello there" }] :=
  remove_filler_words_clean_noop _ _ (by
    intro seg hseg tx htx f hf
    simp only [List.mem_singleton] at hseg hf
    subst hseg
    subst hf
    simp only [Option.some.injEq] at htx
    subst htx
    decide)

/-! ### The script assembler (`src/script_generation.py`) -/

/-- A script: `{title, segments, metadata}` with the metadata keys the
source writes (`generated_by`, `segment_count`, and `target_duration`
on the refinement path). -/
structure Script where
  title : String
  segments : List Segment
  generated_by : String
  segment_count : Nat
  target_duration : Option ℚ := none
deriving DecidableEq, Repr

/-- The formatting loop of `_create_direct_script`:
`segment['script_text'] = segment['text']` for segments with text. -/
def addScriptFormatting (seg : Segment) : Segment :=
  match seg.text with
  | some tx => { seg with script_text := some tx }
  | none => seg

/-- `_create_direct_script(selected_content)`.  The source does
`selected_content.copy()` — a shallow copy — and then assigns
`script_text` on each segment record, so the caller's records are
mutated.  The embedding returns the script together with the post-call
state of the caller's list (the same records the script holds). -/
def create_direct_script (selected_content : List Segment) :
    Script × List Segment :=
  let segs := selected_content.map addScriptFormatting
  ({ title := "Short Video Script",
     segments := segs,
     generated_by := "direct_selection",
     segment_count := selected_content.length,
     target_duration := none },
   segs)

/-- Character count of a refined span:
`len(segment.get('script_text', ''))`. -/
def segChars (s : Segment) : Nat :=
  (s.script_text.getD "").length

/-- The timing-synthesis loop of `_refine_script_with_ai` for the case
of more oracle spans than direct segments: walk from `start_time`,
giving span `i` the share `(chars_i / total_chars) * total` and id `i`. -/
def synthWalk (total : ℚ) (total_chars : Nat) :
    List Segment → ℚ → Nat → List Segment
  | [], _, _ => []
  | seg :: rest, start_time, i =>
    { seg with id := some i,
               start := some start_time,
               end_ := some (start_time +
                 (segChars seg : ℚ) / (total_chars : ℚ) * total) }
      :: synthWalk total total_chars rest
        (start_time + (segChars seg : ℚ) / (total_chars : ℚ) * total) (i + 1)

/-- The positional key copy of `_refine_script_with_ai` for the case of
at most as many oracle spans as direct segments: for
`key in ['start', 'end', 'id']`, copy `direct[i][key]` onto span `i`
when present. -/
def copyTimingFields (d a : Segment) : Segment :=
  let a1 := match d.start with
    | some s => { a with start := some s }
    | none => a
  let a2 := match d.end_ with
    | some e => { a1 with end_ := some e }
    | none => a1
  match d.id with
  | some i => { a2 with id := some i }
  | none => a2

/-- Positional combination of the direct segments with the oracle spans
(`for i, segment in enumerate(refined_script['segments'])`, guarded by
`i < len(direct_script['segments'])`, which always holds in this branch). -/
def copyTimings : List Segment → List Segment → List Segment
  | _, [] => []
  | [], a :: as2 => a :: copyTimings [] as2
  | d :: ds, a :: as2 => copyTimingFields d a :: copyTimings ds as2

/-- `_refine_script_with_ai(selected_content, direct_script, target_duration)`.

The oracle parameter abstracts the chat-completion call and the JSON
parsing (`none` = the call raised, the output was unparseable, or the
parsed value lacked a `segments` list — every such path returns the
direct script; `some (title, spans)` = the parsed script).  When every
span has empty `script_text` in the more-spans branch, the source's
`segment_chars / total_chars` raises `ZeroDivisionError`, which the
enclosing `try` turns into the direct script as well. -/
def refine_script_with_ai (oracle : Option (String × List Segment))
    (selected_content : List Segment) (direct_script : Script)
    (target_duration : ℚ) : Script :=
  match oracle with
  | none => direct_script
  | some (title, ai_segments) =>
    if ai_segments.length ≤ direct_script.segments.length then
      { title := title,
        segments := copyTimings direct_script.segments ai_segments,
        generated_by := "ai_refinement",
        segment_count := ai_segments.length,
        target_duration := some target_duration }
    else
      let total_original_duration := sumTimedDur direct_script.segments
      let total_chars := (ai_segments.map segChars).sum
      if total_chars = 0 then direct_script
      else
        let start_time : ℚ := match direct_script.segments with
          | [] => 0
          | d :: _ => d.start.getD 0
        { title := title,
          segments := synthWalk total_original_duration total_chars
            ai_segments start_time 0,
          generated_by := "ai_refinement",
          segment_count := ai_segments.length,
          target_duration := some target_duration }

/-- `generate_script(selected_content, target_duration)`: build the
direct script, keep it when its duration is within `[0.8, 1.2] × target`,
otherwise attempt the refinement (falling back to the direct script on
oracle failure).  The second component is the post-call state of the
caller's `selected_content` records (mutated by `_create_direct_script`'s
formatting loop through the shared references). -/
def generate_script (refineOracle : Option (String × List Segment))
    (selected_content : List Segment) (target_duration : ℚ) :
    Script × List Segment :=
  let direct_script := (create_direct_script selected_content).1
  let post := (create_direct_script selected_content).2
  let direct_duration := sumTimedDur direct_script.segments
  if (8 / 10) * target_duration ≤ direct_duration ∧
      direct_duration ≤ (12 / 10) * target_duration then
    (direct_script, post)
  else
    (refine_script_with_ai refineOracle selected_content direct_script
      target_duration, post)

/-! ### C8 — the direct path mutates its input -/

/-- The failing input for C8: one segment with timing and text. -/
def segC8 : List Segment :=
  [{ id := some 0, start := some 0, end_ := some 1, text := some "hi" }]

/-- C8: `generate_script` is not side-effect-free on its input.
`_create_direct_script` shallow-copies the list, so the
`segment['script_text'] = segment['text']` loop writes through the shared
references into the caller's records: after the call the input segment
has gained a `script_text` key.  The post-call state differs from the
input at the failing input. -/
theorem generate_script_mutates_input :
    (generate_script none segC8 60).2 ≠ segC8 ∧
    (generate_script none segC8 60).2 =
      [{ id := some 0, start := some 0, end_ := some 1, text := some "hi",
         script_text := some "hi" }] := by decide

/-! ### C5 — the refinement timing contract -/

lemma synthWalk_length (T : ℚ) (C : Nat) :
    ∀ (l : List Segment) (st : ℚ) (i : Nat),
      (synthWalk T C l st i).length = l.length := by
  intro l
  induction l with
  | nil => intro st i; rfl
  | cons seg rest ih => intro st i; simp [synthWalk, ih]

lemma synthWalk_head_start (T : ℚ) (C : Nat) :
    ∀ (l : List Segment) (st : ℚ) (i : Nat) (a : Segment),
      (synthWalk T C l st i)[0]? = some a → a.start = some st := by
  intro l st i a h
  cases l with
  | nil => simp [synthWalk] at h
  | cons seg rest =>
    rw [synthWalk] at h
    simp only [List.getElem?_cons_zero, Option.some.injEq] at h
    subst h
    rfl

lemma synthWalk_adjacent (T : ℚ) (C : Nat) :
    ∀ (l : List Segment) (st : ℚ) (i k : Nat) (a b : Segment),
      (synthWalk T C l st i)[k]? = some a →
      (synthWalk T C l st i)[k + 1]? = some b → a.end_ = b.start := by
  intro l
  induction l with
  | nil => intro st i k a b ha hb; simp [synthWalk] at ha
  | cons seg rest ih =>
    intro st i k a b ha hb
    rw [synthWalk] at ha hb
    cases k with
    | zero =>
      simp only [List.getElem?_cons_zero, Option.some.injEq] at ha
      rw [List.getElem?_cons_succ] at hb
      subst ha
      rw [synthWalk_head_start T C rest _ _ b hb]
    | succ k2 =>
      rw [List.getElem?_cons_succ] at ha hb
      exact ih _ _ k2 a b ha hb

lemma synthWalk_sum (T : ℚ) (C : Nat) :
    ∀ (l : List Segment) (st : ℚ) (i : Nat),
      ((synthWalk T C l st i).map Segment.durOr0).sum =
        ((l.map segChars).sum : ℚ) / (C : ℚ) * T := by
  intro l
  induction l with
  | nil => intro st i; simp [synthWalk]
  | cons seg rest ih =>
    intro st i
    rw [synthWalk]
    simp only [List.map_cons, List.sum_cons, ih, Segment.durOr0]
    push_cast
    ring

lemma synthWalk_props (T : ℚ) (C : Nat) :
    ∀ (l : List Segment) (st : ℚ) (i k : Nat) (a : Segment),
      (synthWalk T C l st i)[k]? = some a →
      a.id = some (i + k) ∧
        a.durOr0 = (segChars a : ℚ) / (C : ℚ) * T := by
  intro l
  induction l with
  | nil => intro st i k a h; simp [synthWalk] at h
  | cons seg rest ih =>
    intro st i k a h
    rw [synthWalk] at h
    cases k with
    | zero =>
      simp only [List.getElem?_cons_zero, Option.some.injEq] at h
      subst h
      refine ⟨by simp, ?_⟩
      simp only [Segment.durOr0, segChars]
      ring
    | succ k2 =>
      rw [List.getElem?_cons_succ] at h
      obtain ⟨h1, h2⟩ := ih _ _ k2 a h
      refine ⟨?_, h2⟩
      have harith : i + 1 + k2 = i + (k2 + 1) := by omega
      rw [h1, harith]

lemma copyTimings_get :
    ∀ (as2 ds : List Segment) (k : Nat) (a d : Segment),
      as2[k]? = some a → ds[k]? = some d →
      (copyTimings ds as2)[k]? = some (copyTimingFields d a) := by
  intro as2
  induction as2 with
  | nil => intro ds k a d ha hd2; simp at ha
  | cons a0 rest ih =>
    intro ds k a d ha hd2
    cases ds with
    | nil => simp at hd2
    | cons d0 ds2 =>
      rw [copyTimings]
      cases k with
      | zero =>
        simp only [List.getElem?_cons_zero, Option.some.injEq] at ha hd2
        subst ha
        subst hd2
        simp
      | succ k2 =>
        rw [List.getElem?_cons_succ] at ha hd2
        rw [List.getElem?_cons_succ]
        exact ih ds2 k2 a d ha hd2

lemma copyTimingFields_fields {d a : Segment}
    (hs : d.start.isSome) (he : d.end_.isSome) (hi : d.id.isSome) :
    (copyTimingFields d a).start = d.start ∧
    (copyTimingFields d a).end_ = d.end_ ∧
    (copyTimingFields d a).id = d.id := by
  rw [Option.isSome_iff_exists] at hs he hi
  obtain ⟨s, hs⟩ := hs
  obtain ⟨e, he⟩ := he
  obtain ⟨i, hi⟩ := hi
  simp [copyTimingFields, hs, he, hi]

/-- The direct script of the C5 counterexample: a single fully timed
10-second segment. -/
def directC5 : Script :=
  { title := "Short Video Script",
    segments := [{ id := some 0, start := some 0, end_ := some 10,
                   text := some "t", script_text := some "t" }],
    generated_by := "direct_selection",
    segment_count := 1 }

/-- Two oracle spans, both with empty `script_text`. -/
def aiEmptyTexts : List Segment :=
  [{ script_text := some "" }, { script_text := some "" }]

/-- C5 counterexample: with strictly more oracle spans than direct
segments but all spans empty, no timing is synthesized at all — the
`segment_chars / total_chars` division raises `ZeroDivisionError`, the
enclosing `try` swallows it, and the direct script (1 segment, not 2) is
returned; in particular the output does not consist of the refined spans
with synthesized timestamps. -/
theorem refine_script_more_spans_counterexample :
    directC5.segments.length < aiEmptyTexts.length ∧
    ¬ ((refine_script_with_ai (some ("T", aiEmptyTexts)) [] directC5
          60).segments.length = aiEmptyTexts.length) := by decide

/-- C5 amended: the refinement timing contract of
`_refine_script_with_ai`, for direct scripts whose segments all carry
`start`, `end` and `id` and have nonnegative total duration.
(1) When the oracle returns at most as many spans as the direct script
has segments, the span at position `k` receives `start`, `end` and `id`
copied from direct segment `k`.  (2) When it returns strictly more spans
and at least one span has non-empty `script_text` (otherwise the
division by `total_chars` raises and the direct script is returned
instead — see the counterexample): the output has one segment per span;
the first starts at the first direct segment's start; consecutive spans
share end/start boundaries; the synthesized durations are each the
nonnegative share of the original total proportional to the span's
character count, carry ids `0, 1, …`, and sum exactly to the direct
script's total duration. -/
theorem refine_script_timing_contract (title : String)
    (selected_content : List Segment) (direct_script : Script)
    (ai_segments : List Segment) (target : ℚ)
    (hd : ∀ d ∈ direct_script.segments,
      d.start.isSome ∧ d.end_.isSome ∧ d.id.isSome)
    (hdir0 : 0 ≤ sumTimedDur direct_script.segments) :
    (ai_segments.length ≤ direct_script.segments.length →
      ∀ (k : Nat) (a d : Segment), ai_segments[k]? = some a →
        direct_script.segments[k]? = some d →
        ∃ r, (refine_script_with_ai (some (title, ai_segments))
              selected_content direct_script target).segments[k]? = some r ∧
          r.start = d.start ∧ r.end_ = d.end_ ∧ r.id = d.id) ∧
    (∀ d0 ds, direct_script.segments = d0 :: ds →
      direct_script.segments.length < ai_segments.length →
      0 < (ai_segments.map segChars).sum →
      ((refine_script_with_ai (some (title, ai_segments)) selected_content
          direct_script target).segments.length = ai_segments.length ∧
       (∀ a, (refine_script_with_ai (some (title, ai_segments))
            selected_content direct_script target).segments[0]? = some a →
          a.start = d0.start) ∧
       (∀ (k : Nat) (a b : Segment), (refine_script_with_ai (some (title, ai_segments))
            selected_content direct_script target).segments[k]? = some a →
          (refine_script_with_ai (some (title, ai_segments)) selected_content
            direct_script target).segments[k + 1]? = some b →
          a.end_ = b.start) ∧
       (((refine_script_with_ai (some (title, ai_segments)) selected_content
            direct_script target).segments.map Segment.durOr0).sum =
          sumTimedDur direct_script.segments) ∧
       (∀ (k : Nat) (a : Segment), (refine_script_with_ai (some (title, ai_segments))
            selected_content direct_script target).segments[k]? = some a →
          a.id = some (k : Int) ∧ 0 ≤ a.durOr0 ∧
          a.durOr0 = (segChars a : ℚ) / ((ai_segments.map segChars).sum : ℚ) *
            sumTimedDur direct_script.segments))) := by
  constructor
  · intro hle k a d ha hd2
    rw [refine_script_with_ai]
    rw [if_pos hle]
    obtain ⟨hs, he, hi⟩ := hd d (List.getElem?_mem hd2)
    exact ⟨copyTimingFields d a, copyTimings_get _ _ k a d ha hd2,
      copyTimingFields_fields hs he hi⟩
  · intro d0 ds hds hlt hchars
    obtain ⟨hs0, he0, hi0⟩ := hd d0 (by rw [hds]; exact List.mem_cons_self d0 ds)
    rw [Option.isSome_iff_exists] at hs0
    obtain ⟨s0, hs0⟩ := hs0
    have hCq : (0 : ℚ) < ((ai_segments.map segChars).sum : ℚ) := by
      exact_mod_cast hchars
    rw [refine_script_with_ai]
    rw [if_neg (not_le.mpr hlt)]
    dsimp only
    rw [if_neg (Nat.pos_iff_ne_zero.1 hchars)]
    have hstq : (match direct_script.segments with
        | [] => (0 : ℚ)
        | d :: _ => d.start.getD 0) = s0 := by
      rw [hds]
      simp [hs0]
    rw [hstq]
    dsimp only
    refine ⟨synthWalk_length _ _ _ _ _, ?_, ?_, ?_, ?_⟩
    · intro a h
      rw [synthWalk_head_start _ _ _ _ _ a h, hs0]
    · intro k a b ha hb
      exact synthWalk_adjacent _ _ _ _ _ k a b ha hb
    · rw [synthWalk_sum]
      rw [div_self (ne_of_gt hCq), one_mul]
    · intro k a h
      obtain ⟨h1, h2⟩ := synthWalk_props _ _ _ _ _ k a h
      refine ⟨by simpa using h1, ?_, h2⟩
      rw [h2]
      have : (0 : ℚ) ≤ (segChars a : ℚ) := by positivity
      have hdiv : (0 : ℚ) ≤ (segChars a : ℚ) / ((ai_segments.map segChars).sum : ℚ) :=
        div_nonneg this (le_of_lt hCq)
      exact mul_nonneg hdiv hdir0

/-- Direct script for the C5 witness: two 5-second segments. -/
def directC5w : Script :=
  { title := "Short Video Script",
    segments :=
      [{ id := some 0, start := some 2, end_ := some 7, text := some "ab",
         script_text := some "ab" },
       { id := some 1, start := some 7, end_ := some 12, text := some "b",
         script_text := some "b" }],
    generated_by := "direct_selection",
    segment_count := 2 }

/-- Three oracle spans with 2, 1 and 1 characters. -/
def aiC5w : List Segment :=
  [{ script_text := some "ab" }, { script_text := some "c" },
   { script_text := some "d" }]

/-- Witness for the C5 amended theorem at a concrete refinement input
(two direct segments, three oracle spans). -/
theorem refine_script_timing_contract_witness :
    (aiC5w.length ≤ directC5w.segments.length →
      ∀ (k : Nat) (a d : Segment), aiC5w[k]? = some a → directC5w.segments[k]? = some d →
        ∃ r, (refine_script_with_ai (some ("T", aiC5w)) [] directC5w
              60).segments[k]? = some r ∧
          r.start = d.start ∧ r.end_ = d.end_ ∧ r.id = d.id) ∧
    (∀ d0 ds, directC5w.segments = d0 :: ds →
      directC5w.segments.length < aiC5w.length →
      0 < (aiC5w.map segChars).sum →
      ((refine_script_with_ai (some ("T", aiC5w)) [] directC5w
          60).segments.length = aiC5w.length ∧
       (∀ a, (refine_script_with_ai (some ("T", aiC5w)) [] directC5w
            60).segments[0]? = some a → a.start = d0.start) ∧
       (∀ (k : Nat) (a b : Segment), (refine_script_with_ai (some ("T", aiC5w)) [] directC5w
            60).segments[k]? = some a →
          (refine_script_with_ai (some ("T", aiC5w)) [] directC5w
            60).segments[k + 1]? = some b → a.end_ = b.start) ∧
       (((refine_script_with_ai (some ("T", aiC5w)) [] directC5w
            60).segments.map Segment.durOr0).sum =
          sumTimedDur directC5w.segments) ∧
       (∀ (k : Nat) (a : Segment), (refine_script_with_ai (some ("T", aiC5w)) [] directC5w
            60).segments[k]? = some a →
          a.id = some (k : Int) ∧ 0 ≤ a.durOr0 ∧
          a.durOr0 = (segChars a : ℚ) / ((aiC5w.map segChars).sum : ℚ) *
            sumTimedDur directC5w.segments))) :=
  refine_script_timing_contract "T" [] directC5w aiC5w 60
    (by decide) (by decide)

end TalkingHead
